import Mathlib

/-!
Verification of the parallel, range-based HTTP file downloader of the
`sheldor` repository (GUI engine in the launcher, CLI engine `romget`).

Go `int64` values (sizes, offsets) are modelled as unbounded `Int`:
all sizes handled by the downloader are far below 2^63, so overflow
never occurs on the modelled paths.  Fallible operations are modelled
with explicit outcome types; the HTTP transport is modelled by the
sequence of read results a response body delivers.
-/

namespace Sheldor

/-- Go constant `numDownloadWorkers = 4` (parallel connections). -/
def numDownloadWorkers : Int := 4

/-- Go constant `minChunkSize = 4 * 1024 * 1024` (4MB minimum chunk size). -/
def minChunkSize : Int := 4 * 1024 * 1024

/-- Go constant `maxChunkRetries = 3` (attempts per chunk). -/
def maxChunkRetries : Nat := 3

/-- A byte range of the remote resource, inclusive offsets,
Go `type chunk struct { start, end int64 }` (`end` is a Lean keyword,
so the second field is named `last`). -/
structure Chunk where
  start : Int
  last : Int
deriving Repr, DecidableEq

/-- The chunk size computed at the top of `downloadParallel`:
`chunkSize := totalSize / int64(numDownloadWorkers); if chunkSize < minChunkSize { chunkSize = minChunkSize }`.
Go division truncates toward zero, hence `Int.tdiv`. -/
def chunkSizeFor (totalSize : Int) : Int :=
  let c := totalSize.tdiv numDownloadWorkers
  if c < minChunkSize then minChunkSize else c

/-- The chunk-queueing loop of `downloadParallel`:
`for start := int64(0); start < totalSize; start += chunkSize { end := start + chunkSize - 1; if end >= totalSize { end = totalSize - 1 }; chunks <- chunk{start, end} }`.
The `chunkSize ≤ 0` guard is only for termination; on the code path
`chunkSize ≥ minChunkSize > 0` always holds. -/
def planFrom (totalSize chunkSize start : Int) : List Chunk :=
  if h0 : chunkSize ≤ 0 then []
  else if h1 : start < totalSize then
    ⟨start, if start + chunkSize - 1 ≥ totalSize then totalSize - 1
            else start + chunkSize - 1⟩ ::
      planFrom totalSize chunkSize (start + chunkSize)
  else []
termination_by (totalSize - start).toNat
decreasing_by
  simp only [not_le] at h0
  omega

/-- The full list of chunks `downloadParallel` enqueues for a given total size. -/
def planChunks (totalSize : Int) : List Chunk :=
  planFrom totalSize (chunkSizeFor totalSize) 0

/-- Length (in bytes) of a chunk's inclusive range. -/
def Chunk.len (c : Chunk) : Int := c.last - c.start + 1

/-- Two adjacent chunks are contiguous: the second starts one past the
first's inclusive end. -/
def Contiguous (a b : Chunk) : Prop := b.start = a.last + 1

instance : DecidablePred fun p : Chunk × Chunk => Contiguous p.1 p.2 := by
  intro p
  unfold Contiguous
  infer_instance

/-- The partition property of a chunk list produced from position `start`:
it opens at `start`, closes at `totalSize - 1`, consecutive ranges are
contiguous, earlier ranges end strictly before later ones start
(non-overlap), every range is non-empty and inside `[start, totalSize)`,
and the lengths sum to `totalSize - start`. -/
def PlanSpec (totalSize start : Int) (l : List Chunk) : Prop :=
  l.head?.map Chunk.start = some start ∧
  l.getLast?.map Chunk.last = some (totalSize - 1) ∧
  List.Chain' Contiguous l ∧
  l.Pairwise (fun a b => a.last < b.start) ∧
  ((l.map Chunk.len).sum = totalSize - start) ∧
  ∀ c ∈ l, start ≤ c.start ∧ c.start ≤ c.last ∧ c.last < totalSize

/-!
The HEAD probe and path selection of `downloadWithProgress`.  The Go code

```
headReq, err := http.NewRequest("HEAD", url, nil)
if err != nil { return err }
headResp, err := client.Do(headReq)
if err != nil { return err }
headResp.Body.Close()
totalSize := headResp.ContentLength
supportsRange := headResp.Header.Get("Accept-Ranges") == "bytes"
if supportsRange && totalSize > minChunkSize*2 { return downloadParallel(...) }
return downloadSingle(...)
```

is modelled by an outcome type for the probe and a function computing
which branch runs.  `Header.Get` returns the empty string for an absent
header, so an absent `Accept-Ranges` is `acceptRanges = ""`.  Note the
status code of the HEAD response is carried but never consulted.
-/

/-- Result of the HEAD probe in `downloadWithProgress`. -/
inductive HeadOutcome where
  /-- Go `http.NewRequest("HEAD", url, nil)` failed (malformed URL). -/
  | reqError : HeadOutcome
  /-- Go `client.Do(headReq)` failed (transport error). -/
  | doError : HeadOutcome
  /-- The HEAD request completed with the given `ContentLength`
  (−1 when unknown), `Accept-Ranges` header value ("" when absent),
  and status code. -/
  | ok (contentLength : Int) (acceptRanges : String) (statusCode : Nat) : HeadOutcome
deriving Repr, DecidableEq

/-- Which branch `downloadWithProgress` executes after the probe. -/
inductive PathChoice where
  /-- The function returns the probe's error; no download path runs. -/
  | fail : PathChoice
  /-- Go `downloadParallel(client, url, outputPath, totalSize, progress)` runs. -/
  | parallel (totalSize : Int) : PathChoice
  /-- Go `downloadSingle(client, url, outputPath, progress)` runs. -/
  | single : PathChoice
deriving Repr, DecidableEq

/-- The branch selection of `downloadWithProgress` (lines 2174-2195). -/
def selectPath (h : HeadOutcome) : PathChoice :=
  match h with
  | .reqError => .fail
  | .doError => .fail
  | .ok contentLength acceptRanges _statusCode =>
      if acceptRanges = "bytes" ∧ contentLength > minChunkSize * 2 then
        .parallel contentLength
      else
        .single

/-!
The chunk fetcher `downloadChunkAttempt` and the retry loop
`downloadChunk`.  The remote resource is a map `src` from absolute byte
offsets to byte values; a ranged GET for `bytes=start-end` streams
`src start, src (start+1), ...`.  A response body is modelled by the
sizes of the successive `resp.Body.Read(buf)` results plus whether the
stream ends in `io.EOF` (`clean = true`) or a mid-stream transport error
(`clean = false`).  The output file is a map from absolute offsets to
byte values; `out.WriteAt(buf[:n], pos)` overwrites offsets
`pos .. pos+n-1`.
-/

/-- One GET attempt's response body: the sizes of the successive reads,
and whether the stream terminated with `io.EOF` (`clean = true`) or with
a transport error (`clean = false`).  A pre-body failure
(`client.Do` error or a bad status code) is `reads = []`, `clean = false`. -/
structure AttemptBody where
  reads : List Nat
  clean : Bool
deriving Repr, DecidableEq

/-- The read/write loop of `downloadChunkAttempt` (lines 2316-2336):
```
buf := make([]byte, 256*1024)
pos := start
var chunkDownloaded int64
for { n, err := resp.Body.Read(buf)
      if n > 0 { out.WriteAt(buf[:n], pos); pos += int64(n);
                 chunkDownloaded += int64(n);
                 updateProgress(start, chunkDownloaded) } ... }
```
Returns the updated file, the final `chunkDownloaded`, and the successive
values passed to `updateProgress`. -/
def attemptLoop (src : Int → Nat) :
    List Nat → (Int → Nat) → Int → Int → ((Int → Nat) × Int × List Int)
  | [], file, _pos, dl => (file, dl, [])
  | n :: rest, file, pos, dl =>
    if n = 0 then
      attemptLoop src rest file pos dl
    else
      let file' : Int → Nat := fun p =>
        if pos ≤ p ∧ p < pos + (n : Int) then src p else file p
      let r := attemptLoop src rest file' (pos + (n : Int)) (dl + (n : Int))
      (r.1, r.2.1, (dl + (n : Int)) :: r.2.2)

/-- Result of one `downloadChunkAttempt`. -/
structure AttemptOutcome where
  file : Int → Nat
  downloaded : Int
  events : List Int
  ok : Bool

/-- Go `downloadChunkAttempt(client, url, out, start, end, updateProgress)`
applied to a response body: the write loop always starts at `pos = start`
with `chunkDownloaded = 0`, and the attempt succeeds iff the body ended
with `io.EOF`. -/
def downloadChunkAttempt (src : Int → Nat) (start : Int) (body : AttemptBody)
    (file : Int → Nat) : AttemptOutcome :=
  let r := attemptLoop src body.reads file start 0
  ⟨r.1, r.2.1, r.2.2, body.clean⟩

/-- Result of a whole `downloadChunk` call: the final file, the stream of
`updateProgress(chunkStart, value)` calls it made, the backoff sleeps
(in seconds) it performed, and whether it returned nil. -/
structure ChunkOutcome where
  file : Int → Nat
  events : List (Int × Int)
  sleeps : List Nat
  ok : Bool

/-- The retry loop of `downloadChunk` (lines 2280-2295):
```
for attempt := 0; attempt < maxChunkRetries; attempt++ {
    if attempt > 0 { time.Sleep(time.Duration(attempt) * time.Second)
                     updateProgress(start, 0) }
    err := downloadChunkAttempt(...)
    if err == nil { return nil }
    lastErr = err }
return fmt.Errorf(...)
```
`remaining = maxChunkRetries - attempt` counts the attempts still
allowed; `bodies` lists the response bodies the successive GET attempts
observe (an exhausted list models attempts that fail before the body). -/
def downloadChunkLoop (src : Int → Nat) (start : Int) :
    Nat → Nat → List AttemptBody → (Int → Nat) →
    List (Int × Int) → List Nat → ChunkOutcome
  | 0, _attempt, _bodies, file, evs, sleeps => ⟨file, evs, sleeps, false⟩
  | remaining + 1, attempt, bodies, file, evs, sleeps =>
    let evs' := if attempt > 0 then evs ++ [(start, 0)] else evs
    let sleeps' := if attempt > 0 then sleeps ++ [attempt] else sleeps
    match bodies with
    | [] => downloadChunkLoop src start remaining (attempt + 1) [] file evs' sleeps'
    | b :: rest =>
      let r := downloadChunkAttempt src start b file
      let evs'' := evs' ++ r.events.map (fun v => (start, v))
      if r.ok then ⟨r.file, evs'', sleeps', true⟩
      else downloadChunkLoop src start remaining (attempt + 1) rest r.file evs'' sleeps'

/-- Go `downloadChunk(client, url, out, start, end, updateProgress)`. -/
def downloadChunk (src : Int → Nat) (start : Int) (bodies : List AttemptBody)
    (file : Int → Nat) : ChunkOutcome :=
  downloadChunkLoop src start maxChunkRetries 0 bodies file [] []

/-!
The progress aggregator of `downloadParallel` (lines 2217-2230):

```
chunkProgress := make(map[int64]int64)
updateProgress := func(chunkStart int64, totalForChunk int64) {
    chunkProgress[chunkStart] = totalForChunk
    var total int64
    for _, v := range chunkProgress { total += v }
    progress(total, totalSize) }
```

The map is modelled as an association list with at most one entry per
key; the order of entries does not affect the recomputed sum.
-/

/-- Go `chunkProgress[chunkStart] = totalForChunk`: replace the entry for
the key, or append a new one. -/
def setChunkProgress : List (Int × Int) → Int → Int → List (Int × Int)
  | [], k, v => [(k, v)]
  | (k', v') :: rest, k, v =>
    if k = k' then (k, v) :: rest else (k', v') :: setChunkProgress rest k v

/-- The recomputed total: the sum of all per-chunk byte counts. -/
def totalProgress (m : List (Int × Int)) : Int := (m.map Prod.snd).sum

/-- Folding a stream of `updateProgress(chunkStart, totalForChunk)` calls
through the aggregator: the successive totals passed to the caller's
`progress(total, totalSize)` callback. -/
def progressTotals : List (Int × Int) → List (Int × Int) → List Int
  | [], _m => []
  | (k, v) :: rest, m =>
    totalProgress (setChunkProgress m k v) ::
      progressTotals rest (setChunkProgress m k v)

/-- The aggregator state after a stream of updates. -/
def applyEvents (evs : List (Int × Int)) (m : List (Int × Int)) :
    List (Int × Int) :=
  evs.foldl (fun acc e => setChunkProgress acc e.1 e.2) m

/-- A serialized schedule of `downloadParallel`'s worker pool: one worker
drains the chunk queue in order (each queued chunk is handed to exactly
one worker; this is the schedule in which one worker takes them all).
The worker stops at the first chunk that exhausts its retries, as in the
Go worker's `return` on error.  Returns the concatenated
`updateProgress` events, the final file, and whether every chunk
succeeded. -/
def runChunks (src : Int → Nat) :
    List Chunk → List (List AttemptBody) → (Int → Nat) →
    List (Int × Int) × (Int → Nat) × Bool
  | [], _bodies, file => ([], file, true)
  | c :: cs, bodies, file =>
    let r := downloadChunk src c.start (bodies.headD []) file
    if r.ok then
      let rest := runChunks src cs bodies.tail r.file
      (r.events ++ rest.1, rest.2)
    else (r.events, r.file, false)

/-- The totals handed to the caller's `progress` callback across a
serialized `downloadParallel` execution (the aggregator starts empty). -/
def parallelProgressTotals (src : Int → Nat) (totalSize : Int)
    (bodies : List (List AttemptBody)) (file : Int → Nat) : List Int :=
  progressTotals (runChunks src (planChunks totalSize) bodies file).1 []

/-!
Filesystem lifecycle of the two download engines, and the callers'
fast-path and cancellation handling.  A file state is `none` (no file at
the path) or `some n` (a file of `n` bytes).
-/

/-- Outcome of the single GET of `downloadSingle` (GUI engine) or
`downloadAttempt` (CLI engine): a transport failure on `client.Do`, or a
completed response with its status code, `ContentLength`, the sizes of
the successive body reads, and whether the body ended in `io.EOF`
(`clean = true`) or a mid-stream error. -/
inductive GetOutcome where
  | doError : GetOutcome
  | ok (statusCode : Nat) (contentLength : Int) (reads : List Nat)
      (clean : Bool) : GetOutcome
deriving Repr, DecidableEq

/-- The progress loop of `downloadSingle` (lines 2371-2385):
`progress(downloaded, total)` after every read with `n > 0`. -/
def singleLoop : List Nat → Int → Int → List (Int × Int)
  | [], _dl, _total => []
  | n :: rest, dl, total =>
    if n = 0 then singleLoop rest dl total
    else (dl + (n : Int), total) :: singleLoop rest (dl + (n : Int)) total

/-- Result of `downloadSingle`: the file at `outputPath`, the progress
calls, and whether an error was returned. -/
structure SingleResult where
  dest : Option Int
  events : List (Int × Int)
  err : Bool
deriving Repr, DecidableEq

/-- Go `downloadSingle` (lines 2340-2387): GET with required status 200,
`os.Create(outputPath)` — the destination path itself, no temporary
name — then a buffered copy loop.  A mid-stream read error returns the
error; the deferred `Flush`/`Close` run but nothing removes the file,
so the partial bytes stay at the destination. -/
def downloadSingle (g : GetOutcome) (dest0 : Option Int) : SingleResult :=
  match g with
  | .doError => ⟨dest0, [], true⟩
  | .ok status contentLength reads clean =>
    if status = 200 then
      ⟨some (reads.sum : Int), singleLoop reads 0 contentLength, !clean⟩
    else ⟨dest0, [], true⟩

/-- The filesystem lifecycle of `downloadParallel` (lines 2205-2276):
`os.Create(outputPath)` — again the destination path itself —
`out.Truncate(totalSize)`, run the workers, then drain `errChan`: on the
first collected chunk error `os.Remove(outputPath)` and return it,
otherwise return nil with the file in place.  Returns the final
destination state and whether an error was returned. -/
def downloadParallelFs (totalSize : Int)
    (createOk truncateOk anyChunkErr : Bool) (dest0 : Option Int) :
    Option Int × Bool :=
  if createOk = false then (dest0, true)
  else if truncateOk = false then (some 0, true)
  else if anyChunkErr then (none, true)
  else (some totalSize, false)

/-- Destination and temp-file state for the CLI engine `romget`. -/
structure CliFs where
  dest : Option Int
  tmp : Option Int
deriving Repr, DecidableEq

/-- Go `downloadAttempt` of the CLI engine (part_001 lines 111-202): GET
with required status 200, create `outputPath + ".tmp"`, buffered copy;
on a copy error, a flush error or a rename error the temp file is
removed and the destination is untouched; only after copy and flush
succeed is the temp renamed onto the destination. -/
def cliDownloadAttempt (g : GetOutcome) (flushOk renameOk : Bool)
    (fs : CliFs) : CliFs × Bool :=
  match g with
  | .doError => (fs, true)
  | .ok status _contentLength reads clean =>
    if status = 200 then
      if clean = false then (⟨fs.dest, none⟩, true)
      else if flushOk = false then (⟨fs.dest, none⟩, true)
      else if renameOk then (⟨some (reads.sum : Int), none⟩, false)
      else (⟨fs.dest, none⟩, true)
    else (fs, true)

/-- One kind of network request the downloader can issue. -/
inductive NetRequest where
  | head : NetRequest
  | getRange (start last : Int) : NetRequest
  | getFull : NetRequest
deriving Repr, DecidableEq

/-- The network requests `downloadWithProgress` issues (first attempts
only).  The `_destExists` argument records whether a file already exists
at the destination when the function is invoked; it is unused because
the Go function consults no filesystem state before sending its HEAD
request (lines 2160-2196 contain no `os.Stat`). -/
def downloadWithProgressRequests (_destExists : Bool) (h : HeadOutcome) :
    List NetRequest :=
  match h with
  | .reqError => []
  | .doError => [.head]
  | .ok contentLength acceptRanges _status =>
    if acceptRanges = "bytes" ∧ contentLength > minChunkSize * 2 then
      .head :: (planChunks contentLength).map (fun c => .getRange c.start c.last)
    else [.head, .getFull]

/-- What the CLI `main` does at its fast path (part_001 lines 265-269):
`os.Stat(outputPath)` succeeding short-circuits to exit code 0 before
`downloadFile` is ever called. -/
inductive CliAction where
  | alreadyExists : CliAction
  | download : CliAction
deriving Repr, DecidableEq

/-- The CLI `main` decision on an existing destination. -/
def cliMainAction (destExists : Bool) : CliAction :=
  if destExists then .alreadyExists else .download

/-- What the GUI `downloadSelected` does (lines 1633-1646): a cached ROM
short-circuits to the "Already downloaded" status without calling
`downloadGame`. -/
inductive GuiAction where
  | alreadyDownloaded : GuiAction
  | startDownload : GuiAction
deriving Repr, DecidableEq

/-- The GUI `downloadSelected` decision. -/
def downloadSelectedAction (romCached : Bool) : GuiAction :=
  if romCached then .alreadyDownloaded else .startDownload

/-- What the `downloadGame` goroutine does once `downloadWithProgress`
RETURNS (lines 1978-1999): with the dialog closed (`cancelled`) it
removes the downloaded file and surfaces nothing; otherwise an error
shows an error dialog and success installs the ROM. -/
inductive GameDownloadOutcome where
  | fileRemovedSilently : GameDownloadOutcome
  | errorDialog : GameDownloadOutcome
  | installed : GameDownloadOutcome
deriving Repr, DecidableEq

/-- The post-download dispatch of the `downloadGame` goroutine.  Note it
runs only after the whole download has finished: the `cancelled` flag is
never consulted by the downloader itself, which has no cancellation
parameter. -/
def downloadGameFinish (cancelled err : Bool) : GameDownloadOutcome :=
  if cancelled then .fileRemovedSilently
  else if err then .errorDialog
  else .installed

/-- The progress callback `downloadGame` hands to the downloader (lines
1967-1976): when `cancelled` it merely skips the UI update — it cannot
stop the transfer.  Returns whether the UI is updated. -/
def progressCallbackUpdatesUI (cancelled : Bool) (downloaded total : Int) :
    Bool :=
  if cancelled then false
  else if total > 0 then true
  else false

lemma planFrom_stop (totalSize chunkSize start : Int) (h : ¬ start < totalSize) :
    planFrom totalSize chunkSize start = [] := by
  rw [planFrom]
  by_cases h0 : chunkSize ≤ 0
  · rw [dif_pos h0]
  · rw [dif_neg h0, dif_neg h]

lemma planFrom_spec (totalSize chunkSize : Int) (hcs : 0 < chunkSize) :
    ∀ (n : Nat) (start : Int), (totalSize - start).toNat ≤ n → start < totalSize →
      PlanSpec totalSize start (planFrom totalSize chunkSize start) := by
  intro n
  induction n with
  | zero => intro start hn hlt; omega
  | succ n ih =>
    intro start hn hlt
    rw [planFrom, dif_neg (by omega : ¬ chunkSize ≤ 0), dif_pos hlt]
    by_cases hb : start + chunkSize < totalSize
    · have hnoclamp : ¬ start + chunkSize - 1 ≥ totalSize := by omega
      rw [if_neg hnoclamp]
      obtain ⟨ihhead, ihlast, ihchain, ihpw, ihsum, ihmem⟩ :=
        ih (start + chunkSize) (by omega) hb
      obtain ⟨b, t, hbt⟩ : ∃ b t, planFrom totalSize chunkSize (start + chunkSize) = b :: t := by
        cases hpl : planFrom totalSize chunkSize (start + chunkSize) with
        | nil => rw [hpl] at ihhead; simp at ihhead
        | cons b t => exact ⟨b, t, rfl⟩
      rw [hbt] at ihhead ihlast ihchain ihpw ihsum ihmem
      have hbstart : b.start = start + chunkSize := by
        simp only [List.head?_cons, Option.map_some] at ihhead
        exact Option.some.inj ihhead
      refine ⟨by simp, ?_, ?_, ?_, ?_, ?_⟩
      · rw [hbt, List.getLast?_cons_cons]
        exact ihlast
      · rw [hbt]
        refine List.Chain'.cons ?_ ihchain
        show b.start = _
        dsimp only
        omega
      · rw [hbt]
        refine List.Pairwise.cons ?_ ihpw
        intro c hc
        have hcs' : start + chunkSize ≤ c.start := (ihmem c hc).1
        dsimp only
        omega
      · rw [hbt, List.map_cons, List.sum_cons, ihsum]
        simp only [Chunk.len]
        omega
      · intro c hc
        rw [hbt] at hc
        rcases List.mem_cons.mp hc with hc | hc
        · subst hc
          refine ⟨le_refl _, ?_, ?_⟩ <;> dsimp only <;> omega
        · have := ihmem c hc
          exact ⟨by omega, this.2.1, this.2.2⟩
    · have hclamp : planFrom totalSize chunkSize (start + chunkSize) = [] :=
        planFrom_stop _ _ _ hb
      rw [hclamp]
      have hend : (if start + chunkSize - 1 ≥ totalSize then totalSize - 1
          else start + chunkSize - 1) = totalSize - 1 := by
        by_cases hge : start + chunkSize - 1 ≥ totalSize
        · rw [if_pos hge]
        · rw [if_neg hge]; omega
      rw [hend]
      refine ⟨by simp, by simp, List.chain'_singleton _, by simp, ?_, ?_⟩
      · simp only [List.map_cons, List.map_nil, List.sum_cons, List.sum_nil, Chunk.len]
        omega
      · intro c hc
        simp only [List.mem_singleton] at hc
        subst hc
        refine ⟨le_refl _, ?_, ?_⟩ <;> dsimp only <;> omega

/-- The `chunkSize` computed by `downloadParallel` is always positive. -/
lemma chunkSizeFor_pos (totalSize : Int) : 0 < chunkSizeFor totalSize := by
  unfold chunkSizeFor minChunkSize numDownloadWorkers
  generalize totalSize.tdiv 4 = c
  by_cases h : c < 4 * 1024 * 1024
  · rw [if_pos h]; norm_num
  · rw [if_neg h]; omega

/-- Every chunk start produced from position `s` lies on the arithmetic
progression `s, s + chunkSize, s + 2*chunkSize, ...` — the loop walks by
`chunkSize`. -/
lemma planFrom_start_progression (totalSize chunkSize : Int) (hcs : 0 < chunkSize) :
    ∀ (n : Nat) (s : Int), (totalSize - s).toNat ≤ n →
      ∀ c ∈ planFrom totalSize chunkSize s, ∃ i : Nat, c.start = s + i * chunkSize := by
  intro n
  induction n with
  | zero =>
    intro s hn c hc
    by_cases hlt : s < totalSize
    · omega
    · rw [planFrom_stop _ _ _ hlt] at hc
      simp at hc
  | succ n ih =>
    intro s hn c hc
    by_cases hlt : s < totalSize
    · rw [planFrom, dif_neg (by omega : ¬ chunkSize ≤ 0), dif_pos hlt] at hc
      rcases List.mem_cons.mp hc with hc | hc
      · exact ⟨0, by subst hc; dsimp only; ring⟩
      · obtain ⟨i, hi⟩ := ih (s + chunkSize) (by omega) c hc
        exact ⟨i + 1, by rw [hi]; push_cast; ring⟩
    · rw [planFrom_stop _ _ _ hlt] at hc
      simp at hc

/-- The planner output for the 40 MB scenario
(`totalSize = 41943040 = 40 * 1024 * 1024`): four chunks of 10 MB. -/
lemma planChunks_40MB :
    planChunks 41943040 =
      [⟨0, 10485759⟩, ⟨10485760, 20971519⟩, ⟨20971520, 31457279⟩,
       ⟨31457280, 41943039⟩] := by
  have hcs : chunkSizeFor 41943040 = 10485760 := by decide
  unfold planChunks
  rw [hcs]
  simp [planFrom]

/-- C1: for every totalSize > 2*minChunkSize (the condition under which the
parallel path runs) the byte ranges `downloadParallel` enqueues partition
`[0, totalSize)` exactly: in queue order (sorted by start) they are
contiguous, non-overlapping, the first starts at 0, the last ends at
`totalSize - 1`, and the chunk lengths sum to `totalSize`. -/
theorem parallel_chunks_partition (totalSize : Int)
    (h : totalSize > 2 * minChunkSize) :
    (planChunks totalSize).head?.map Chunk.start = some 0 ∧
    (planChunks totalSize).getLast?.map Chunk.last = some (totalSize - 1) ∧
    List.Chain' Contiguous (planChunks totalSize) ∧
    (planChunks totalSize).Pairwise (fun a b => a.last < b.start) ∧
    (∀ c ∈ planChunks totalSize, 0 ≤ c.start ∧ c.start ≤ c.last ∧ c.last < totalSize) ∧
    ((planChunks totalSize).map Chunk.len).sum = totalSize := by
  have h0 : (0:Int) < totalSize := by
    have : (0:Int) < minChunkSize := by unfold minChunkSize; norm_num
    omega
  have hs := planFrom_spec totalSize (chunkSizeFor totalSize) (chunkSizeFor_pos _)
    (totalSize - 0).toNat 0 (le_refl _) h0
  obtain ⟨a, b, c, d, e, f⟩ := hs
  exact ⟨a, b, c, d, f, by simpa using e⟩

/-- Witness for `parallel_chunks_partition` at the 40 MB input. -/
theorem parallel_chunks_partition_witness :
    (41943040 : Int) > 2 * minChunkSize ∧
    ((planChunks 41943040).head?.map Chunk.start = some 0 ∧
     (planChunks 41943040).getLast?.map Chunk.last = some (41943040 - 1) ∧
     List.Chain' Contiguous (planChunks 41943040) ∧
     (planChunks 41943040).Pairwise (fun a b => a.last < b.start) ∧
     (∀ c ∈ planChunks 41943040, 0 ≤ c.start ∧ c.start ≤ c.last ∧ c.last < 41943040) ∧
     ((planChunks 41943040).map Chunk.len).sum = 41943040) :=
  ⟨by norm_num [minChunkSize],
   parallel_chunks_partition 41943040 (by norm_num [minChunkSize])⟩

/-- C4 counterexample: for the 40 MB scenario the planner emits 4 chunks of
10 MB each, not 10 chunks of 4 MB: the walk stride is
`chunkSize = max(totalSize/numDownloadWorkers, minChunkSize) = 10 MB`,
not `minChunkSize`. -/
theorem scenarioA_chunk_count_cex :
    (planChunks 41943040).length = 4 ∧ ¬ (planChunks 41943040).length = 10 ∧
    chunkSizeFor 41943040 = 10485760 ∧ ¬ chunkSizeFor 41943040 = minChunkSize ∧
    ¬ (planChunks 41943040).get? 1 = some ⟨4194304, 8388607⟩ := by
  rw [planChunks_40MB]
  refine ⟨rfl, by decide, by decide, by decide, by decide⟩

/-- C4 amended: chunk starts are generated by walking
`start = 0, chunkSize, 2*chunkSize, ...` (stride
`chunkSize = max(totalSize/workerCount, minChunkSize)`, not `minChunkSize`)
until `start >= totalSize`, with the final range's end clamped to
`totalSize - 1`; for a 40 MB resource with workerCount = 4 and
minChunkSize = 4 MB this yields exactly 4 chunks of 10 MB each. -/
theorem scenarioA_chunks_amended (totalSize : Int)
    (h : totalSize > 2 * minChunkSize) :
    (∀ c ∈ planChunks totalSize, ∃ i : Nat, c.start = i * chunkSizeFor totalSize) ∧
    (planChunks totalSize).getLast?.map Chunk.last = some (totalSize - 1) ∧
    planChunks 41943040 =
      [⟨0, 10485759⟩, ⟨10485760, 20971519⟩, ⟨20971520, 31457279⟩,
       ⟨31457280, 41943039⟩] ∧
    (planChunks 41943040).length = 4 ∧
    (∀ c ∈ planChunks 41943040, c.len = 10485760) := by
  have h0 : (0:Int) < totalSize := by
    have : (0:Int) < minChunkSize := by unfold minChunkSize; norm_num
    omega
  refine ⟨?_, ?_, planChunks_40MB, ?_, ?_⟩
  · intro c hc
    obtain ⟨i, hi⟩ := planFrom_start_progression totalSize (chunkSizeFor totalSize)
      (chunkSizeFor_pos _) (totalSize - 0).toNat 0 (le_refl _) c hc
    exact ⟨i, by omega⟩
  · exact (planFrom_spec totalSize (chunkSizeFor totalSize) (chunkSizeFor_pos _)
      (totalSize - 0).toNat 0 (le_refl _) h0).2.1
  · rw [planChunks_40MB]; rfl
  · rw [planChunks_40MB]
    intro c hc
    simp only [List.mem_cons, List.mem_singleton] at hc
    rcases hc with hc | hc | hc | hc | hc <;> first
      | (subst hc; decide)
      | simp at hc

/-- Witness for `scenarioA_chunks_amended` at the 40 MB input. -/
theorem scenarioA_chunks_amended_witness :
    (41943040 : Int) > 2 * minChunkSize ∧
    ((∀ c ∈ planChunks 41943040, ∃ i : Nat, c.start = i * chunkSizeFor 41943040) ∧
     (planChunks 41943040).getLast?.map Chunk.last = some (41943040 - 1) ∧
     planChunks 41943040 =
       [⟨0, 10485759⟩, ⟨10485760, 20971519⟩, ⟨20971520, 31457279⟩,
        ⟨31457280, 41943039⟩] ∧
     (planChunks 41943040).length = 4 ∧
     (∀ c ∈ planChunks 41943040, c.len = 10485760)) :=
  ⟨by norm_num [minChunkSize],
   scenarioA_chunks_amended 41943040 (by norm_num [minChunkSize])⟩

/-- C6: the orchestrator selects the parallel path exactly when the probe
reports range support and `totalSize > 2*minChunkSize`, and the
single-stream path otherwise; in particular a 2 MB resource goes
single-stream regardless of range support and a 500 MB resource without
`Accept-Ranges: bytes` goes single-stream. -/
theorem orchestrator_path_choice (len : Int) (ranges : String) (status : Nat) :
    (selectPath (.ok len ranges status) = .parallel len ↔
      (ranges = "bytes" ∧ len > 2 * minChunkSize)) ∧
    (¬ (ranges = "bytes" ∧ len > 2 * minChunkSize) →
      selectPath (.ok len ranges status) = .single) ∧
    selectPath (.ok (2 * 1024 * 1024) "bytes" 200) = .single ∧
    selectPath (.ok (500 * 1024 * 1024) "" 200) = .single := by
  have hmul : minChunkSize * 2 = 2 * minChunkSize := by ring
  refine ⟨?_, ?_, by decide, by decide⟩
  · simp only [selectPath]
    by_cases hc : ranges = "bytes" ∧ len > minChunkSize * 2
    · rw [if_pos hc]
      constructor
      · intro _; exact ⟨hc.1, by rw [← hmul]; exact hc.2⟩
      · intro _; rfl
    · rw [if_neg hc]
      constructor
      · intro h; exact absurd h (by simp)
      · intro h; exact absurd ⟨h.1, by rw [hmul]; exact h.2⟩ hc
  · intro h
    simp only [selectPath]
    rw [if_neg (by rw [hmul]; exact h)]

/-- Witness for `orchestrator_path_choice`: a 9 MB range-supported resource
goes parallel, a 2 MB one goes single-stream. -/
theorem orchestrator_path_choice_witness :
    ¬ ((("" : String) = "bytes") ∧ (500 * 1024 * 1024 : Int) > 2 * minChunkSize) ∧
    selectPath (.ok (500 * 1024 * 1024) "" 200) = .single ∧
    selectPath (.ok (9 * 1024 * 1024) "bytes" 200) = .parallel (9 * 1024 * 1024) :=
  ⟨by decide,
   (orchestrator_path_choice (500 * 1024 * 1024) "" 200).2.1 (by decide),
   (orchestrator_path_choice (9 * 1024 * 1024) "bytes" 200).1.mpr (by decide)⟩

/-- C5 counterexample: a transport error on the HEAD request makes
`downloadWithProgress` return the error rather than fall back to the
single-stream path, and a non-2xx HEAD status is not treated as "no range
support": with `Accept-Ranges: bytes` and a large size, a 404 HEAD
response still selects the parallel path. -/
theorem probe_degradation_cex :
    selectPath .doError = .fail ∧ ¬ selectPath .doError = .single ∧
    selectPath (.ok (10 * 1024 * 1024) "bytes" 404) =
      .parallel (10 * 1024 * 1024) ∧
    ¬ selectPath (.ok (10 * 1024 * 1024) "bytes" 404) = .single := by
  decide

/-- C5 amended: the flag `supportsRange` is computed solely from the `Accept-Ranges`
header (absence, i.e. the empty string, or any other value degrades to the
single-stream path); the HEAD status code is never examined; and the probe
is fatal both when the request cannot be constructed (malformed URL) and
when the HEAD request itself fails in transport. -/
theorem probe_degradation_amended (len : Int) (ranges : String)
    (status status' : Nat) :
    (¬ ranges = "bytes" → selectPath (.ok len ranges status) = .single) ∧
    selectPath (.ok len ranges status) = selectPath (.ok len ranges status') ∧
    selectPath .reqError = .fail ∧
    selectPath .doError = .fail := by
  refine ⟨?_, ?_, rfl, rfl⟩
  · intro h
    simp only [selectPath]
    rw [if_neg (fun hc => h hc.1)]
  · simp only [selectPath]

/-- Witness for `probe_degradation_amended` at an absent header. -/
theorem probe_degradation_amended_witness :
    ¬ (("" : String) = "bytes") ∧
    selectPath (.ok (500 * 1024 * 1024) "" 404) = .single :=
  ⟨by decide, (probe_degradation_amended (500 * 1024 * 1024) "" 404 200).1 (by decide)⟩

/-- C10: a HEAD response without Content-Length is reported as −1, and then
the orchestrator always takes the single-stream path regardless of the
`Accept-Ranges` header; more generally the parallel path runs only with a
known size above `2 * minChunkSize`, so `Truncate(totalSize)` always gets
a positive size. -/
theorem unknown_length_single_stream :
    (∀ (ranges : String) (status : Nat),
      selectPath (.ok (-1) ranges status) = .single) ∧
    (∀ (h : HeadOutcome) (len : Int),
      selectPath h = .parallel len → 2 * minChunkSize < len ∧ 0 < len) := by
  constructor
  · intro ranges status
    simp only [selectPath]
    rw [if_neg]
    rintro ⟨-, hgt⟩
    have : (0:Int) < minChunkSize := by unfold minChunkSize; norm_num
    omega
  · intro h len hp
    cases h with
    | reqError => exact absurd hp (by simp [selectPath])
    | doError => exact absurd hp (by simp [selectPath])
    | ok cl ranges status =>
      simp only [selectPath] at hp
      by_cases hc : ranges = "bytes" ∧ cl > minChunkSize * 2
      · rw [if_pos hc] at hp
        have hlen : cl = len := by
          simpa using hp
        have : (0:Int) < minChunkSize := by unfold minChunkSize; norm_num
        constructor <;> omega
      · rw [if_neg hc] at hp
        exact absurd hp (by simp)

/-- Witness for `unknown_length_single_stream` at a 9 MB parallel choice. -/
theorem unknown_length_single_stream_witness :
    selectPath (.ok (9 * 1024 * 1024) "bytes" 200) = .parallel (9 * 1024 * 1024) ∧
    (2 * minChunkSize < (9 * 1024 * 1024 : Int) ∧ (0:Int) < 9 * 1024 * 1024) :=
  ⟨by decide,
   unknown_length_single_stream.2 (.ok (9 * 1024 * 1024) "bytes" 200)
     (9 * 1024 * 1024) (by decide)⟩

lemma attemptLoop_spec (src : Int → Nat) :
    ∀ (reads : List Nat) (file : Int → Nat) (pos dl : Int),
      (attemptLoop src reads file pos dl).1 =
        (fun p => if pos ≤ p ∧ p < pos + (reads.sum : Int) then src p else file p) ∧
      (attemptLoop src reads file pos dl).2.1 = dl + (reads.sum : Int) ∧
      List.Chain' (· ≤ ·) (dl :: (attemptLoop src reads file pos dl).2.2) ∧
      (∀ v ∈ (attemptLoop src reads file pos dl).2.2, dl ≤ v) ∧
      (attemptLoop src reads file pos dl).2.2.getLastD dl = dl + (reads.sum : Int) := by
  intro reads
  induction reads with
  | nil =>
    intro file pos dl
    refine ⟨?_, by simp [attemptLoop], by simp [attemptLoop], by simp [attemptLoop],
      by simp [attemptLoop]⟩
    funext p
    simp only [attemptLoop, List.sum_nil, Nat.cast_zero, add_zero]
    rw [if_neg (by omega)]
  | cons n rest ih =>
    intro file pos dl
    by_cases hn : n = 0
    · subst hn
      have := ih file pos dl
      simpa [attemptLoop] using this
    · have hpos : 0 < n := Nat.pos_of_ne_zero hn
      obtain ⟨ihf, ihd, ihchain, ihmem, ihlast⟩ :=
        ih (fun p => if pos ≤ p ∧ p < pos + (n : Int) then src p else file p)
          (pos + (n : Int)) (dl + (n : Int))
      simp only [attemptLoop, if_neg hn]
      refine ⟨?_, ?_, ?_, ?_, ?_⟩
      · rw [ihf]
        funext p
        simp only [List.sum_cons, Nat.cast_add]
        split_ifs <;> first | rfl | (exfalso; omega)
      · rw [ihd, List.sum_cons]
        push_cast
        ring
      · refine List.Chain'.cons (by omega) ?_
        exact ihchain
      · intro v hv
        rcases List.mem_cons.mp hv with hv | hv
        · omega
        · have := ihmem v hv
          omega
      · rw [List.getLastD_cons, ihlast, List.sum_cons]
        push_cast
        ring

/-- A clean attempt whose reads sum to the range length `len` overwrites
exactly `[start, start+len)` with the resource bytes, reports
`chunkDownloaded` up to exactly `len`, and succeeds — independent of the
previous file contents. -/
lemma downloadChunkAttempt_success (src file : Int → Nat) (start : Int)
    (body : AttemptBody) (hclean : body.clean = true) :
    (downloadChunkAttempt src start body file).ok = true ∧
    (downloadChunkAttempt src start body file).file =
      (fun p => if start ≤ p ∧ p < start + (body.reads.sum : Int) then src p
                else file p) ∧
    (downloadChunkAttempt src start body file).events.getLastD 0 =
      (body.reads.sum : Int) := by
  obtain ⟨hf, _hd, _hc, _hm, hl⟩ := attemptLoop_spec src body.reads file start 0
  refine ⟨by simp [downloadChunkAttempt, hclean], ?_, ?_⟩
  · simpa [downloadChunkAttempt] using hf
  · simpa [downloadChunkAttempt] using hl

/-- C3: a chunk execution whose first fetch attempt fails partway (after
writing any partial prefix) and whose second attempt succeeds produces
exactly the resource bytes on `[start, endp]`, the same as an execution
succeeding on the first attempt; the retry rewrites from offset `start`,
the chunk's recorded progress is reset to 0 (event `(start, 0)`) between
the two attempts' progress reports, the backoff sleep equals the attempt
number, and a chunk whose attempts all fail errors out after exactly
`maxChunkRetries = 3` attempts. -/
theorem chunk_retry_correctness (src file : Int → Nat) (start endp : Int)
    (fail succeed : AttemptBody)
    (hfail : fail.clean = false) (hsucc : succeed.clean = true)
    (hsum : (succeed.reads.sum : Int) = endp - start + 1)
    (hrange : start ≤ endp) :
    ((downloadChunk src start [fail, succeed] file).ok = true ∧
     (downloadChunk src start [succeed] file).ok = true ∧
     (∀ p, start ≤ p → p ≤ endp →
       (downloadChunk src start [fail, succeed] file).file p = src p ∧
       (downloadChunk src start [succeed] file).file p = src p)) ∧
    ((downloadChunk src start [fail, succeed] file).events =
      (downloadChunkAttempt src start fail file).events.map (fun v => (start, v)) ++
      [(start, 0)] ++
      (downloadChunkAttempt src start succeed
        (downloadChunkAttempt src start fail file).file).events.map
          (fun v => (start, v)) ∧
     (downloadChunk src start [fail, succeed] file).sleeps = [1] ∧
     (downloadChunk src start [succeed] file).sleeps = []) ∧
    (∀ b1 b2 b3 : AttemptBody, b1.clean = false → b2.clean = false →
      b3.clean = false →
      (downloadChunk src start [b1, b2, b3] file).ok = false ∧
      (downloadChunk src start [b1, b2, b3] file).sleeps = [1, 2]) := by
  obtain ⟨freads, fclean⟩ := fail
  obtain ⟨sreads, sclean⟩ := succeed
  cases fclean
  case true => simp at hfail
  case false =>
  cases sclean
  case false => simp at hsucc
  case true =>
  simp only at hsum
  have hregion : ∀ (f : Int → Nat) (p : Int), start ≤ p → p ≤ endp →
      (downloadChunkAttempt src start ⟨sreads, true⟩ f).file p = src p := by
    intro f p hp1 hp2
    obtain ⟨-, hfile, -⟩ := downloadChunkAttempt_success src f start ⟨sreads, true⟩ rfl
    rw [hfile]
    have hred : (if start ≤ p ∧ p < start + (sreads.sum : Int) then src p else f p) =
        src p := if_pos ⟨hp1, by omega⟩
    exact hred
  have hrun12 : downloadChunk src start [⟨freads, false⟩, ⟨sreads, true⟩] file =
      ⟨(downloadChunkAttempt src start ⟨sreads, true⟩
          (downloadChunkAttempt src start ⟨freads, false⟩ file).file).file,
       ((downloadChunkAttempt src start ⟨freads, false⟩ file).events.map
           (fun v => (start, v)) ++ [(start, 0)]) ++
         ((downloadChunkAttempt src start ⟨sreads, true⟩
            (downloadChunkAttempt src start ⟨freads, false⟩ file).file).events.map
           (fun v => (start, v))),
       [1], true⟩ := rfl
  have hrun1 : downloadChunk src start [⟨sreads, true⟩] file =
      ⟨(downloadChunkAttempt src start ⟨sreads, true⟩ file).file,
       (downloadChunkAttempt src start ⟨sreads, true⟩ file).events.map
         (fun v => (start, v)),
       [], true⟩ := rfl
  refine ⟨⟨?_, ?_, ?_⟩, ⟨?_, ?_, ?_⟩, ?_⟩
  · rw [hrun12]
  · rw [hrun1]
  · intro p hp1 hp2
    constructor
    · rw [hrun12]
      exact hregion _ p hp1 hp2
    · rw [hrun1]
      exact hregion _ p hp1 hp2
  · rw [hrun12, List.append_assoc]
  · rw [hrun12]
  · rw [hrun1]
  · intro b1 b2 b3 h1 h2 h3
    obtain ⟨r1, c1⟩ := b1
    obtain ⟨r2, c2⟩ := b2
    obtain ⟨r3, c3⟩ := b3
    cases c1
    case true => simp at h1
    case false =>
    cases c2
    case true => simp at h2
    case false =>
    cases c3
    case true => simp at h3
    case false =>
    exact ⟨rfl, rfl⟩

/-- Witness for `chunk_retry_correctness` on the 5-byte range `[0, 4]`
of a constant resource, with a first attempt failing after 2 bytes. -/
theorem chunk_retry_correctness_witness :
    (AttemptBody.mk [2] false).clean = false ∧
    (AttemptBody.mk [5] true).clean = true ∧
    ((([5] : List Nat).sum : Int) = 4 - 0 + 1) ∧
    ((0 : Int) ≤ 4) ∧
    (((downloadChunk (fun _ => 7) 0 [⟨[2], false⟩, ⟨[5], true⟩] (fun _ => 0)).ok = true ∧
      (downloadChunk (fun _ => 7) 0 [⟨[5], true⟩] (fun _ => 0)).ok = true ∧
      (∀ p, (0:Int) ≤ p → p ≤ 4 →
        (downloadChunk (fun _ => 7) 0 [⟨[2], false⟩, ⟨[5], true⟩] (fun _ => 0)).file p =
          (fun _ => 7) p ∧
        (downloadChunk (fun _ => 7) 0 [⟨[5], true⟩] (fun _ => 0)).file p =
          (fun _ => 7) p)) ∧
     ((downloadChunk (fun _ => 7) 0 [⟨[2], false⟩, ⟨[5], true⟩] (fun _ => 0)).events =
       (downloadChunkAttempt (fun _ => 7) 0 ⟨[2], false⟩ (fun _ => 0)).events.map
         (fun v => ((0:Int), v)) ++ [((0:Int), (0:Int))] ++
       (downloadChunkAttempt (fun _ => 7) 0 ⟨[5], true⟩
         (downloadChunkAttempt (fun _ => 7) 0 ⟨[2], false⟩ (fun _ => 0)).file).events.map
           (fun v => ((0:Int), v)) ∧
      (downloadChunk (fun _ => 7) 0 [⟨[2], false⟩, ⟨[5], true⟩] (fun _ => 0)).sleeps = [1] ∧
      (downloadChunk (fun _ => 7) 0 [⟨[5], true⟩] (fun _ => 0)).sleeps = []) ∧
     (∀ b1 b2 b3 : AttemptBody, b1.clean = false → b2.clean = false →
       b3.clean = false →
       (downloadChunk (fun _ => 7) 0 [b1, b2, b3] (fun _ => 0)).ok = false ∧
       (downloadChunk (fun _ => 7) 0 [b1, b2, b3] (fun _ => 0)).sleeps = [1, 2])) :=
  ⟨rfl, rfl, by norm_num, by norm_num,
   chunk_retry_correctness (fun _ => 7) (fun _ => 0) 0 4 ⟨[2], false⟩ ⟨[5], true⟩
     rfl rfl (by norm_num) (by norm_num)⟩

lemma setChunkProgress_fresh (k v : Int) :
    ∀ (m : List (Int × Int)), (∀ k' ∈ m.map Prod.fst, k' ≠ k) →
      setChunkProgress m k v = m ++ [(k, v)] := by
  intro m
  induction m with
  | nil => intro _; rfl
  | cons e rest ih =>
    intro hk
    obtain ⟨k', v'⟩ := e
    have hne : ¬ k = k' := by
      intro h
      exact hk k' (by simp) h.symm
    simp only [setChunkProgress, if_neg hne, List.cons_append, List.cons.injEq, true_and]
    exact ih (fun x hx => hk x (by simp [hx]))

lemma setChunkProgress_last (k v v0 : Int) :
    ∀ (m : List (Int × Int)), (∀ k' ∈ m.map Prod.fst, k' ≠ k) →
      setChunkProgress (m ++ [(k, v0)]) k v = m ++ [(k, v)] := by
  intro m
  induction m with
  | nil => simp [setChunkProgress]
  | cons e rest ih =>
    intro hk
    obtain ⟨k', v'⟩ := e
    have hne : ¬ k = k' := by
      intro h
      exact hk k' (by simp) h.symm
    simp only [List.cons_append, setChunkProgress, if_neg hne, List.cons.injEq, true_and]
    exact ih (fun x hx => hk x (by simp [hx]))

lemma totalProgress_append (m : List (Int × Int)) (k v : Int) :
    totalProgress (m ++ [(k, v)]) = totalProgress m + v := by
  simp [totalProgress]

/-- Updates all on one key `k` not present in `m`, starting from a state
where `k` holds `v0`: each update reports `totalProgress m` plus its own
value, and the final state holds the last value. -/
lemma progressTotals_same_key (k : Int) (m : List (Int × Int))
    (hk : ∀ k' ∈ m.map Prod.fst, k' ≠ k) :
    ∀ (vs : List Int) (v0 : Int),
      progressTotals (vs.map fun v => (k, v)) (m ++ [(k, v0)]) =
        vs.map (fun v => totalProgress m + v) ∧
      applyEvents (vs.map fun v => (k, v)) (m ++ [(k, v0)]) =
        m ++ [(k, vs.getLastD v0)] := by
  intro vs
  induction vs with
  | nil => intro v0; exact ⟨rfl, rfl⟩
  | cons v vs ih =>
    intro v0
    have hset := setChunkProgress_last k v v0 m hk
    obtain ⟨ih1, ih2⟩ := ih v
    constructor
    · simp only [List.map_cons, progressTotals, hset, ih1,
        totalProgress_append, List.getLastD_cons]
    · simp only [List.map_cons, applyEvents, List.foldl_cons] at ih2 ⊢
      rw [hset] at *
      rw [ih2, List.getLastD_cons]

/-- A nonempty update stream on a fresh key `k`: totals are
`totalProgress m` plus the stream's values, and the final state appends
`(k, last value)`. -/
lemma progressTotals_new_key (k : Int) (m : List (Int × Int))
    (hk : ∀ k' ∈ m.map Prod.fst, k' ≠ k) (v : Int) (vs : List Int) :
    progressTotals ((v :: vs).map fun u => (k, u)) m =
      (v :: vs).map (fun u => totalProgress m + u) ∧
    applyEvents ((v :: vs).map fun u => (k, u)) m =
      m ++ [(k, (v :: vs).getLastD 0)] := by
  have hset := setChunkProgress_fresh k v m hk
  obtain ⟨h1, h2⟩ := progressTotals_same_key k m hk vs v
  constructor
  · simp only [List.map_cons, progressTotals, hset, h1,
      totalProgress_append]
  · simp only [List.map_cons, applyEvents, List.foldl_cons] at h2 ⊢
    rw [hset, h2, List.getLastD_cons]

lemma progressTotals_append (evs1 evs2 : List (Int × Int)) :
    ∀ (m : List (Int × Int)),
      progressTotals (evs1 ++ evs2) m =
        progressTotals evs1 m ++ progressTotals evs2 (applyEvents evs1 m) := by
  induction evs1 with
  | nil => intro m; rfl
  | cons e rest ih =>
    intro m
    obtain ⟨k, v⟩ := e
    rw [List.cons_append, progressTotals, progressTotals, ih]
    rfl

lemma applyEvents_append (evs1 evs2 : List (Int × Int)) (m : List (Int × Int)) :
    applyEvents (evs1 ++ evs2) m = applyEvents evs2 (applyEvents evs1 m) := by
  simp [applyEvents, List.foldl_append]

lemma getLastD_append (l1 l2 : List Int) :
    ∀ d : Int, (l1 ++ l2).getLastD d = l2.getLastD (l1.getLastD d) := by
  induction l1 with
  | nil => intro d; rfl
  | cons x rest ih =>
    intro d
    rw [List.cons_append, List.getLastD_cons, List.getLastD_cons, ih]

lemma chain_le_append (b : Int) (l2 : List Int)
    (h2 : List.Chain' (· ≤ ·) (b :: l2)) :
    ∀ (l1 : List Int) (a : Int), List.Chain' (· ≤ ·) (a :: l1) →
      l1.getLastD a = b → List.Chain' (· ≤ ·) (a :: (l1 ++ l2)) := by
  intro l1
  induction l1 with
  | nil =>
    intro a _ hlast
    rw [List.getLastD_nil] at hlast
    subst hlast
    simpa using h2
  | cons x rest ih =>
    intro a h1 hlast
    rw [List.getLastD_cons] at hlast
    have hax : a ≤ x := (List.chain'_cons.mp h1).1
    have hrest := (List.chain'_cons.mp h1).2
    exact List.chain'_cons.mpr ⟨hax, ih x hrest hlast⟩

/-- Running `downloadChunk` on a single clean body: one attempt, no sleeps,
success, events those of the attempt. -/
lemma downloadChunk_single_clean (src : Int → Nat) (start : Int)
    (b : AttemptBody) (hb : b.clean = true) (file : Int → Nat) :
    downloadChunk src start [b] file =
      ⟨(downloadChunkAttempt src start b file).file,
       (downloadChunkAttempt src start b file).events.map (fun v => (start, v)),
       [], true⟩ := by
  obtain ⟨reads, clean⟩ := b
  cases clean
  case false => simp at hb
  case true => rfl

lemma getLastD_map_add (t : Int) :
    ∀ (xs : List Int) (x d : Int),
      ((x :: xs).map (fun u => t + u)).getLastD d = t + xs.getLastD x := by
  intro xs
  induction xs with
  | nil => intro x d; rfl
  | cons y ys ih =>
    intro x d
    rw [List.map_cons, List.getLastD_cons, ih y (t + x), List.getLastD_cons]

/-- Serialized execution in which every chunk succeeds on its first
attempt (one clean body per chunk, reads summing to the chunk length):
the run succeeds, the reported totals never decrease from
`totalProgress m`, the last reported total adds all chunk lengths, and
the final aggregator state records every chunk at full length. -/
lemma runChunks_no_retry (src : Int → Nat) :
    ∀ (l : List Chunk) (bs : List AttemptBody) (file : Int → Nat)
      (m : List (Int × Int)),
      bs.length = l.length →
      (∀ cb ∈ l.zip bs, cb.2.clean = true ∧
        (cb.2.reads.sum : Int) = cb.1.len ∧ 0 < cb.1.len) →
      (∀ c ∈ l, ∀ k ∈ m.map Prod.fst, k ≠ c.start) →
      l.Pairwise (fun a b => a.start ≠ b.start) →
      (runChunks src l (bs.map fun b => [b]) file).2.2 = true ∧
      List.Chain' (· ≤ ·) (totalProgress m ::
        progressTotals (runChunks src l (bs.map fun b => [b]) file).1 m) ∧
      (progressTotals (runChunks src l (bs.map fun b => [b]) file).1 m).getLastD
          (totalProgress m) =
        totalProgress m + (l.map Chunk.len).sum ∧
      applyEvents (runChunks src l (bs.map fun b => [b]) file).1 m =
        m ++ l.map (fun c => (c.start, c.len)) := by
  intro l
  induction l with
  | nil =>
    intro bs file m _ _ _ _
    refine ⟨rfl, List.chain'_singleton _, by simp [runChunks, progressTotals],
      by simp [runChunks, applyEvents]⟩
  | cons c cs ih =>
    intro bs file m hlen hzip hfresh hpw
    obtain ⟨b, bs', rfl⟩ : ∃ b bs', bs = b :: bs' := by
      cases bs with
      | nil => simp at hlen
      | cons b bs' => exact ⟨b, bs', rfl⟩
    obtain ⟨hbclean, hbsum, hblen⟩ := hzip (c, b) (by simp [List.zip_cons_cons])
    dsimp only at hbclean hbsum hblen
    have hch := downloadChunk_single_clean src c.start b hbclean file
    have hatt := attemptLoop_spec src b.reads file c.start 0
    set att := downloadChunkAttempt src c.start b file with hattdef
    have hvs_last : att.events.getLastD 0 = c.len := by
      have := hatt.2.2.2.2
      simpa [hattdef, downloadChunkAttempt, hbsum] using this
    have hvs_chain : List.Chain' (· ≤ ·) ((0:Int) :: att.events) := by
      have := hatt.2.2.1
      simpa [hattdef, downloadChunkAttempt] using this
    obtain ⟨v, vs', hvs⟩ : ∃ v vs', att.events = v :: vs' := by
      cases hvse : att.events with
      | nil =>
        rw [hvse] at hvs_last
        simp [List.getLastD_nil] at hvs_last
        omega
      | cons v vs' => exact ⟨v, vs', rfl⟩
    have hkfresh : ∀ k' ∈ m.map Prod.fst, k' ≠ c.start := fun k hk =>
      hfresh c (by simp) k hk
    obtain ⟨htot1, happ1⟩ := progressTotals_new_key c.start m hkfresh v vs'
    have hlast0 : (v :: vs').getLastD 0 = c.len := by
      rw [← hvs]
      exact hvs_last
    -- the recursive tail over the grown aggregator state
    have ihall := ih bs' att.file (m ++ [(c.start, c.len)])
      (by simpa using hlen)
      (fun cb hcb => hzip cb (by simp [List.zip_cons_cons, hcb]))
      (by
        intro c' hc' k hk
        simp only [List.map_append, List.mem_append, List.map_cons, List.map_nil,
          List.mem_singleton] at hk
        rcases hk with hk | hk
        · exact hfresh c' (by simp [hc']) k hk
        · rw [hk]
          exact (List.pairwise_cons.mp hpw).1 c' hc')
      (List.pairwise_cons.mp hpw).2
    obtain ⟨ihok, ihchain, ihlast, ihapply⟩ := ihall
    -- unfold one step of runChunks
    have hrun : runChunks src (c :: cs) ((b :: bs').map fun b => [b]) file =
        (att.events.map (fun u => (c.start, u)) ++
          (runChunks src cs (bs'.map fun b => [b]) att.file).1,
         (runChunks src cs (bs'.map fun b => [b]) att.file).2) := by
      rw [List.map_cons, runChunks]
      simp only [List.headD_cons, List.tail_cons, hch, ← hattdef]
      rfl
    rw [hrun]
    have happly1 : applyEvents (att.events.map fun u => (c.start, u)) m =
        m ++ [(c.start, c.len)] := by
      rw [hvs, happ1, hlast0]
    have htotals : progressTotals (att.events.map (fun u => (c.start, u)) ++
        (runChunks src cs (bs'.map fun b => [b]) att.file).1) m =
        (v :: vs').map (fun u => totalProgress m + u) ++
          progressTotals (runChunks src cs (bs'.map fun b => [b]) att.file).1
            (m ++ [(c.start, c.len)]) := by
      rw [progressTotals_append, happly1, hvs, htot1]
    have htm : totalProgress (m ++ [(c.start, c.len)]) =
        totalProgress m + c.len := totalProgress_append m c.start c.len
    rw [htm] at ihchain ihlast
    refine ⟨ihok, ?_, ?_, ?_⟩
    · rw [htotals]
      refine chain_le_append (totalProgress m + c.len) _ ihchain _ _ ?_ ?_
      · -- Chain' over the first chunk's totals
        have : ((0:Int) :: v :: vs').map (fun u => totalProgress m + u) =
            (totalProgress m + 0) :: (v :: vs').map (fun u => totalProgress m + u) := rfl
        have hmchain : List.Chain' (· ≤ ·)
            (((0:Int) :: v :: vs').map (fun u => totalProgress m + u)) := by
          rw [List.chain'_map]
          refine (hvs ▸ hvs_chain).imp ?_
          intro a b hab
          omega
        rw [this] at hmchain
        simpa using hmchain
      · rw [getLastD_map_add, ← List.getLastD_cons 0 v vs', hlast0]
    · rw [htotals, getLastD_append, getLastD_map_add,
        ← List.getLastD_cons 0 v vs', hlast0, ihlast, List.map_cons, List.sum_cons]
      ring
    · rw [applyEvents_append, happly1, ihapply, List.map_cons,
        List.append_assoc]
      rfl

/-- C7 counterexample: a successful serialized `downloadParallel`
execution of the 40 MB scenario whose first chunk fails once (after 5
bytes) and then succeeds reports the totals
`[5, 0, 10485760, 20971520, 31457280, 41943040]`: the retry reset makes
the sequence decrease (5 then 0), so the totals are not non-decreasing,
even though the download succeeds and the final call equals
`totalSize`. -/
theorem progress_monotonicity_cex :
    (runChunks (fun _ => 0) (planChunks 41943040)
        [[⟨[5], false⟩, ⟨[10485760], true⟩], [⟨[10485760], true⟩],
         [⟨[10485760], true⟩], [⟨[10485760], true⟩]] (fun _ => 0)).2.2 = true ∧
    parallelProgressTotals (fun _ => 0) 41943040
        [[⟨[5], false⟩, ⟨[10485760], true⟩], [⟨[10485760], true⟩],
         [⟨[10485760], true⟩], [⟨[10485760], true⟩]] (fun _ => 0) =
      [5, 0, 10485760, 20971520, 31457280, 41943040] ∧
    ¬ List.Chain' (· ≤ ·)
        (parallelProgressTotals (fun _ => 0) 41943040
          [[⟨[5], false⟩, ⟨[10485760], true⟩], [⟨[10485760], true⟩],
           [⟨[10485760], true⟩], [⟨[10485760], true⟩]] (fun _ => 0)) ∧
    (parallelProgressTotals (fun _ => 0) 41943040
        [[⟨[5], false⟩, ⟨[10485760], true⟩], [⟨[10485760], true⟩],
         [⟨[10485760], true⟩], [⟨[10485760], true⟩]] (fun _ => 0)).getLastD 0 =
      41943040 := by
  unfold parallelProgressTotals
  rw [planChunks_40MB]
  have h2 : progressTotals (runChunks (fun _ => (0:Nat))
      [⟨0, 10485759⟩, ⟨10485760, 20971519⟩, ⟨20971520, 31457279⟩,
       ⟨31457280, 41943039⟩]
      [[⟨[5], false⟩, ⟨[10485760], true⟩], [⟨[10485760], true⟩],
       [⟨[10485760], true⟩], [⟨[10485760], true⟩]] (fun _ => 0)).1 [] =
      [5, 0, 10485760, 20971520, 31457280, 41943040] := by decide
  refine ⟨by decide, h2, ?_, by rw [h2]; decide⟩
  rw [h2]
  intro hch
  exact absurd (List.chain'_cons.mp hch).1 (by norm_num)

/-- C7 amended: for serialized executions in which every chunk succeeds
on its first attempt the totals passed to the progress callback are
non-decreasing and the final call equals `totalSize`; a chunk retry
breaks monotonicity by resetting that chunk's recorded progress to 0. -/
theorem progress_monotonic_amended (src file : Int → Nat)
    (totalSize : Int) (bodies : List AttemptBody)
    (hts : totalSize > 2 * minChunkSize)
    (hlen : bodies.length = (planChunks totalSize).length)
    (hb : ∀ cb ∈ (planChunks totalSize).zip bodies,
      cb.2.clean = true ∧ (cb.2.reads.sum : Int) = cb.1.len) :
    (runChunks src (planChunks totalSize) (bodies.map fun b => [b]) file).2.2 = true ∧
    List.Chain' (· ≤ ·) ((0:Int) ::
      parallelProgressTotals src totalSize (bodies.map fun b => [b]) file) ∧
    (parallelProgressTotals src totalSize (bodies.map fun b => [b]) file).getLastD 0 =
      totalSize := by
  have h0 : (0:Int) < totalSize := by
    have : (0:Int) < minChunkSize := by unfold minChunkSize; norm_num
    omega
  obtain ⟨-, -, -, hpw, hsum, hmem⟩ :=
    planFrom_spec totalSize (chunkSizeFor totalSize) (chunkSizeFor_pos _)
      (totalSize - 0).toNat 0 (le_refl _) h0
  have hzip : ∀ cb ∈ (planChunks totalSize).zip bodies, cb.2.clean = true ∧
      (cb.2.reads.sum : Int) = cb.1.len ∧ 0 < cb.1.len := by
    intro cb hcb
    obtain ⟨h1, h2⟩ := hb cb hcb
    have hc : cb.1 ∈ planChunks totalSize := (List.of_mem_zip hcb).1
    have := hmem cb.1 hc
    exact ⟨h1, h2, by simp only [Chunk.len]; omega⟩
  have hpw' : (planChunks totalSize).Pairwise (fun a b => a.start ≠ b.start) := by
    refine hpw.imp_of_mem ?_
    intro a b ha hb' hab
    have h1 := hmem a ha
    omega
  obtain ⟨hok, hchain, hlast, -⟩ := runChunks_no_retry src (planChunks totalSize)
    bodies file [] hlen hzip (by simp) hpw'
  have htp0 : totalProgress [] = 0 := rfl
  rw [htp0] at hchain hlast
  refine ⟨hok, ?_, ?_⟩
  · exact hchain
  · unfold parallelProgressTotals
    rw [hlast]
    simpa using hsum

/-- Witness for `progress_monotonic_amended` at the 40 MB scenario with
every chunk succeeding in a single full read. -/
theorem progress_monotonic_amended_witness :
    ((41943040:Int) > 2 * minChunkSize) ∧
    (([⟨[10485760], true⟩, ⟨[10485760], true⟩, ⟨[10485760], true⟩,
       ⟨[10485760], true⟩] : List AttemptBody).length =
      (planChunks 41943040).length) ∧
    (∀ cb ∈ (planChunks 41943040).zip
        ([⟨[10485760], true⟩, ⟨[10485760], true⟩, ⟨[10485760], true⟩,
          ⟨[10485760], true⟩] : List AttemptBody),
      cb.2.clean = true ∧ (cb.2.reads.sum : Int) = cb.1.len) ∧
    ((runChunks (fun _ => 0) (planChunks 41943040)
        (([⟨[10485760], true⟩, ⟨[10485760], true⟩, ⟨[10485760], true⟩,
           ⟨[10485760], true⟩] : List AttemptBody).map fun b => [b])
        (fun _ => 0)).2.2 = true ∧
     List.Chain' (· ≤ ·) ((0:Int) ::
       parallelProgressTotals (fun _ => 0) 41943040
         (([⟨[10485760], true⟩, ⟨[10485760], true⟩, ⟨[10485760], true⟩,
            ⟨[10485760], true⟩] : List AttemptBody).map fun b => [b])
         (fun _ => 0)) ∧
     (parallelProgressTotals (fun _ => 0) 41943040
         (([⟨[10485760], true⟩, ⟨[10485760], true⟩, ⟨[10485760], true⟩,
            ⟨[10485760], true⟩] : List AttemptBody).map fun b => [b])
         (fun _ => 0)).getLastD 0 = 41943040) :=
  ⟨by norm_num [minChunkSize],
   by rw [planChunks_40MB]; rfl,
   by rw [planChunks_40MB]; decide,
   progress_monotonic_amended (fun _ => 0) (fun _ => 0) 41943040 _
     (by norm_num [minChunkSize])
     (by rw [planChunks_40MB]; rfl)
     (by rw [planChunks_40MB]; decide)⟩

/-- C2 counterexample: a GUI single-stream download that fails mid-stream
(status 200, one 5-byte read, then a read error) returns an error yet
leaves a 5-byte partial file at the destination path; the claim that an
erroring invocation always leaves the destination absent is false, and
the in-progress data was at the public path, not under a temporary
name. -/
theorem error_cleanup_cex :
    (downloadSingle (.ok 200 100 [5] false) none).err = true ∧
    (downloadSingle (.ok 200 100 [5] false) none).dest = some 5 ∧
    ¬ (downloadSingle (.ok 200 100 [5] false) none).dest = none := by
  decide

/-- C2 amended: the CLI engine behaves as claimed (temp name
`outputPath + ".tmp"`, rename only after success, temp removed and
destination untouched on failure), but the GUI engine writes directly at
the destination path with no temporary name: its parallel path removes
the destination when a chunk fails after retries (and publishes it in
place on success), while its single-stream path leaves the partial file
at the destination on a mid-stream error. -/
theorem error_cleanup_amended (totalSize contentLength : Int)
    (reads : List Nat) (d0 : Option Int) (g : GetOutcome)
    (flushOk renameOk : Bool) (fs : CliFs) (htmp : fs.tmp = none) :
    (downloadParallelFs totalSize true true true d0 = (none, true) ∧
     downloadParallelFs totalSize true true false d0 = (some totalSize, false)) ∧
    ((downloadSingle (.ok 200 contentLength reads false) d0).err = true ∧
     (downloadSingle (.ok 200 contentLength reads false) d0).dest =
       some (reads.sum : Int)) ∧
    (((cliDownloadAttempt g flushOk renameOk fs).2 = true →
       (cliDownloadAttempt g flushOk renameOk fs).1.dest = fs.dest) ∧
     (cliDownloadAttempt g flushOk renameOk fs).1.tmp = none) := by
  refine ⟨⟨rfl, rfl⟩, ⟨rfl, rfl⟩, ?_, ?_⟩
  · intro herr
    cases g with
    | doError => rfl
    | ok status cl reads clean =>
      simp only [cliDownloadAttempt] at herr ⊢
      by_cases hst : status = 200
      · rw [if_pos hst] at herr ⊢
        cases clean
        · rfl
        · simp only [Bool.true_eq_false, if_false] at herr ⊢
          by_cases hf : flushOk = false
          · rw [if_pos hf]
          · rw [if_neg hf] at herr ⊢
            by_cases hr : renameOk
            · rw [if_pos hr] at herr
              simp at herr
            · rw [if_neg hr]
      · rw [if_neg hst]
  · cases g with
    | doError => exact htmp
    | ok status cl reads clean =>
      simp only [cliDownloadAttempt]
      by_cases hst : status = 200
      · rw [if_pos hst]
        cases clean
        · rfl
        · simp only [Bool.true_eq_false, if_false]
          by_cases hf : flushOk = false
          · rw [if_pos hf]
          · rw [if_neg hf]
            by_cases hr : renameOk
            · rw [if_pos hr]
            · rw [if_neg hr]
      · rw [if_neg hst]
        exact htmp

/-- Witness for `error_cleanup_amended` at a clean CLI state. -/
theorem error_cleanup_amended_witness :
    (CliFs.mk none none).tmp = none ∧
    ((downloadParallelFs 100 true true true (some 3) = (none, true) ∧
      downloadParallelFs 100 true true false (some 3) = (some 100, false)) ∧
     ((downloadSingle (.ok 200 100 [5] false) (some 3)).err = true ∧
      (downloadSingle (.ok 200 100 [5] false) (some 3)).dest =
        some (([5] : List Nat).sum : Int)) ∧
     (((cliDownloadAttempt (.ok 200 100 [5] false) true true ⟨none, none⟩).2 = true →
        (cliDownloadAttempt (.ok 200 100 [5] false) true true ⟨none, none⟩).1.dest =
          (CliFs.mk none none).dest) ∧
      (cliDownloadAttempt (.ok 200 100 [5] false) true true ⟨none, none⟩).1.tmp =
        none)) :=
  ⟨rfl, error_cleanup_amended 100 100 [5] (some 3) (.ok 200 100 [5] false)
    true true ⟨none, none⟩ rfl⟩

/-- C8 counterexample: with a file already present at the destination,
`downloadWithProgress` still issues its HEAD probe (and then a GET): it
never consults the filesystem, so the second invocation performs network
requests, and the single-stream path overwrites the existing 999-byte
destination file rather than leaving it unchanged. -/
theorem idempotent_fast_path_cex :
    ¬ downloadWithProgressRequests true (.ok 100 "" 200) = [] ∧
    downloadWithProgressRequests true (.ok 100 "" 200) = [.head, .getFull] ∧
    (downloadSingle (.ok 200 100 [5] true) (some 999)).dest = some 5 ∧
    ¬ (downloadSingle (.ok 200 100 [5] true) (some 999)).dest = some 999 := by
  decide

/-- C8 amended: the "already downloaded" fast path lives in the callers,
not in `downloadWithProgress`: the CLI `main` exits without any network
activity when `os.Stat` finds the destination, and the GUI
`downloadSelected` refuses to start a download for a cached ROM; the
orchestrator itself always sends the HEAD probe (whenever the request
can be constructed), independently of whether the destination exists. -/
theorem idempotent_fast_path_amended (h : HeadOutcome) :
    cliMainAction true = .alreadyExists ∧
    cliMainAction false = .download ∧
    downloadSelectedAction true = .alreadyDownloaded ∧
    downloadSelectedAction false = .startDownload ∧
    (∀ d1 d2 : Bool,
      downloadWithProgressRequests d1 h = downloadWithProgressRequests d2 h) ∧
    (¬ h = .reqError → .head ∈ downloadWithProgressRequests true h) := by
  refine ⟨rfl, rfl, rfl, rfl, fun d1 d2 => rfl, ?_⟩
  intro hne
  cases h with
  | reqError => exact absurd rfl hne
  | doError => simp [downloadWithProgressRequests]
  | ok cl ranges status =>
    simp only [downloadWithProgressRequests]
    by_cases hc : ranges = "bytes" ∧ cl > minChunkSize * 2
    · rw [if_pos hc]
      exact List.mem_cons_self _ _
    · rw [if_neg hc]
      exact List.mem_cons_self _ _

/-- Witness for `idempotent_fast_path_amended` at a completed HEAD. -/
theorem idempotent_fast_path_amended_witness :
    ¬ (HeadOutcome.ok 100 "" 200) = .reqError ∧
    NetRequest.head ∈ downloadWithProgressRequests true (.ok 100 "" 200) :=
  ⟨by decide, (idempotent_fast_path_amended (.ok 100 "" 200)).2.2.2.2.2 (by decide)⟩

/-- C9 counterexample: closing the progress dialog does not surface any
cancellation-kind error — the goroutine silently removes the completed
file and returns, and this happens whether or not the download itself
erred; while the download runs, the flag merely suppresses UI updates.
No cancellation-kind outcome distinct from success/network-error exists
on this path. -/
theorem cancellation_cex :
    downloadGameFinish true false = .fileRemovedSilently ∧
    ¬ downloadGameFinish true false = .errorDialog ∧
    downloadGameFinish true true = .fileRemovedSilently ∧
    ¬ downloadGameFinish true true = .errorDialog ∧
    progressCallbackUpdatesUI true 5 100 = false ∧
    progressCallbackUpdatesUI false 5 100 = true := by
  decide

/-- C9 amended: cancellation is a UI-level boolean polled only by the
progress callback (skipping UI updates) and by the completion handler:
the downloader receives no cancellation signal and runs to completion;
afterwards the file — written at the destination path, not a temporary
one — is removed when the flag is set, and no error, cancellation-kind
or otherwise, is surfaced. -/
theorem cancellation_amended (err : Bool) (downloaded total : Int) :
    downloadGameFinish true err = .fileRemovedSilently ∧
    ¬ downloadGameFinish true err = .errorDialog ∧
    progressCallbackUpdatesUI true downloaded total = false ∧
    downloadGameFinish false true = .errorDialog ∧
    downloadGameFinish false false = .installed := by
  refine ⟨rfl, by simp [downloadGameFinish], rfl, rfl, rfl⟩

end Sheldor
